import Mathlib

/-!
Verification of the obsidian-mcp-server core subsystems against their
natural-language specification: the front-matter property merge engine
(src/tools/properties/manager.ts), the property update validation schema
(property types module), the rate limiter (rate-limiting module), the tool
dispatch pipeline (MCP request handlers module), the token budgeter
(tokenization module) and the tag cache (src/resources/tags.ts together
with the get_tags tool in src/tools/search/simple.ts).

Machine integers do not occur on the verified paths (counts and times are
small nonnegative integers, modelled as Nat); JS objects are modelled as
functions from keys to optional values or as association lists where
iteration order matters.
-/

/-- Values stored in a YAML front-matter mapping, as handled by
PropertyManager: strings, arrays, and shallow objects (the custom field).
Arrays are modelled as arrays of strings, matching the property schema in
which every recognized array field is an array of strings; object values
are modelled as association lists with string values. -/
inductive PropValue where
  | str : String → PropValue
  | arr : List String → PropValue
  | obj : List (String × String) → PropValue
  deriving DecidableEq, Repr

/-- A JS object holding properties, read through key lookup: none models an
absent key. -/
abbrev PropMap := String → Option PropValue

/-- Pointwise assignment merged[k] = v of the JS update loop. -/
def setKey (m : PropMap) (k : String) (v : PropValue) : PropMap :=
  fun k2 => if k2 = k then some v else m k2

/-- Building a JS Set by inserting the elements of a list in order, reading
the result back in insertion order; seen is the set of elements already
inserted. -/
def dedupInsertAll (seen : List String) : List String → List String
  | [] => []
  | x :: xs => if x ∈ seen then dedupInsertAll seen xs else x :: dedupInsertAll (x :: seen) xs

/-- Duplicate removal keeping the first occurrence of each element: the
iteration order of a JS Set built from the list. -/
def dedupKeepFirst (l : List String) : List String := dedupInsertAll [] l

/-- The array merge [...new Set([...currentValue, ...value])] of
manager.ts line 129: spread the old array then the new one into a Set and
read it back in insertion order. -/
def dedupUnion (old nw : List String) : List String :=
  dedupKeepFirst (old ++ nw)

/-- JS object spread semantics for two shallow objects with the new
entries written last: on a key collision the new entry wins, unrelated old
entries survive. -/
def objMerge (old nw : List (String × String)) : List (String × String) :=
  old.filter (fun p => (nw.lookup p.1).isNone) ++ nw

/-- The enumerable own entries a JS object spread reads from a value:
objects contribute their entries, arrays contribute index-keyed entries,
strings contribute index-keyed characters. -/
def toObjEntries : PropValue → List (String × String)
  | .obj m => m
  | .arr xs => (xs.enum.map fun p => (toString p.1, p.2))
  | .str s => (s.toList.enum.map fun p => (toString p.1, p.2.toString))

/-- The JS test typeof value === "object" (arrays included, strings
excluded); null does not occur among property values here. -/
def isObjectType : PropValue → Bool
  | .str _ => false
  | .arr _ => true
  | .obj _ => true

/-- The assignment merged.custom = { ...merged.custom, ...value } of
manager.ts lines 133-136: spread the current custom value (nothing when it
is absent) and then the update value. -/
def customMergeVal (cur : Option PropValue) (v : PropValue) : PropValue :=
  .obj (objMerge (match cur with | some c => toObjEntries c | none => []) (toObjEntries v))

/-- One iteration of the update loop of PropertyManager.mergeProperties
(manager.ts lines 119-142) at the single key it writes: given the replace
flag, the key, the current value under that key and the update value (none
models a JS undefined value), compute the value the loop body leaves under
that key. -/
def stepKey (r : Bool) (k : String) (cur : Option PropValue) (uv : Option PropValue) :
    Option PropValue :=
  match uv with
  | none => cur
  | some v =>
    if k = "created" ∨ k = "modified" then cur
    else
      match v, cur with
      | .arr a, some (.arr b) => some (.arr (if r then a else dedupUnion b a))
      | _, _ =>
        if k = "custom" ∧ isObjectType v then some (customMergeVal cur v)
        else some v

/-- One iteration of the update loop as a transformation of the whole
merged object: every branch of the loop body assigns only merged[key], so
the map is unchanged elsewhere. -/
def mergeStep (r : Bool) (m : PropMap) (kv : String × Option PropValue) : PropMap :=
  fun k => if k = kv.1 then stepKey r kv.1 (m kv.1) kv.2 else m k

/-- PropertyManager.mergeProperties (manager.ts lines 112-148): fold the
update entries (in object iteration order) over a copy of the existing
properties, then unconditionally set modified to the current timestamp.
The timestamp string produced by new Date().toISOString() is passed in as
the parameter now. -/
def mergeProperties (existing : PropMap) (updates : List (String × Option PropValue))
    (replaceArrays : Bool) (now : String) : PropMap :=
  setKey (updates.foldl (mergeStep replaceArrays) existing) "modified" (.str now)

/-! ### Basic lemmas about the merge fold -/

theorem setKey_ne (m : PropMap) (k k2 : String) (v : PropValue) (h : k2 ≠ k) :
    setKey m k v k2 = m k2 := by
  simp [setKey, h]

theorem setKey_self (m : PropMap) (k : String) (v : PropValue) :
    setKey m k v k = some v := by
  simp [setKey]

theorem mergeStep_ne (r : Bool) (m : PropMap) (kv : String × Option PropValue)
    (k : String) (h : k ≠ kv.1) : mergeStep r m kv k = m k := by
  simp [mergeStep, h]

theorem foldl_mergeStep_not_mem (r : Bool) (us : List (String × Option PropValue))
    (m : PropMap) (k : String) (h : ∀ e ∈ us, e.1 ≠ k) :
    us.foldl (mergeStep r) m k = m k := by
  induction us generalizing m with
  | nil => rfl
  | cons e us ih =>
    have he : e.1 ≠ k := h e (List.mem_cons_self e us)
    have := ih (mergeStep r m e) (fun e2 h2 => h e2 (List.mem_cons_of_mem e h2))
    rw [List.foldl_cons, this, mergeStep_ne r m e k (Ne.symm he)]

theorem stepKey_isSome (r : Bool) (k : String) (cur uv : Option PropValue)
    (h : cur.isSome) : (stepKey r k cur uv).isSome := by
  cases uv with
  | none => exact h
  | some v =>
    simp only [stepKey]
    split
    · exact h
    · split
      · simp
      · split <;> simp

theorem mergeStep_isSome (r : Bool) (m : PropMap) (kv : String × Option PropValue)
    (k : String) (h : (m k).isSome) : ((mergeStep r m kv) k).isSome := by
  by_cases hk : k = kv.1
  · subst hk; simpa [mergeStep] using stepKey_isSome r kv.1 (m kv.1) kv.2 h
  · simpa [mergeStep, hk] using h

theorem foldl_mergeStep_isSome (r : Bool) (us : List (String × Option PropValue))
    (m : PropMap) (k : String) (h : (m k).isSome) :
    (us.foldl (mergeStep r) m k).isSome := by
  induction us generalizing m with
  | nil => exact h
  | cons e us ih => exact ih (mergeStep r m e) (mergeStep_isSome r m e k h)

/-! ### Lemmas about first-occurrence deduplication -/

theorem mem_dedupInsertAll (x : String) :
    ∀ (l seen : List String), x ∈ dedupInsertAll seen l ↔ x ∈ l ∧ x ∉ seen := by
  intro l
  induction l with
  | nil => intro seen; simp [dedupInsertAll]
  | cons y ys ih =>
    intro seen
    by_cases hy : y ∈ seen
    · simp only [dedupInsertAll, if_pos hy, ih seen, List.mem_cons]
      constructor
      · rintro ⟨hx, hs⟩; exact ⟨Or.inr hx, hs⟩
      · rintro ⟨rfl | hx, hs⟩
        · exact absurd hy hs
        · exact ⟨hx, hs⟩
    · simp only [dedupInsertAll, if_neg hy, List.mem_cons, ih (y :: seen)]
      constructor
      · rintro (rfl | ⟨hx, hs⟩)
        · exact ⟨Or.inl rfl, hy⟩
        · exact ⟨Or.inr hx, fun hc => hs (Or.inr hc)⟩
      · rintro ⟨rfl | hx, hs⟩
        · exact Or.inl rfl
        · by_cases hxy : x = y
          · exact Or.inl hxy
          · exact Or.inr ⟨hx, fun hc => hc.elim hxy hs⟩

theorem nodup_dedupInsertAll : ∀ (l seen : List String), (dedupInsertAll seen l).Nodup := by
  intro l
  induction l with
  | nil => intro seen; simp [dedupInsertAll]
  | cons y ys ih =>
    intro seen
    by_cases hy : y ∈ seen
    · simpa [dedupInsertAll, if_pos hy] using ih seen
    · simp only [dedupInsertAll, if_neg hy]
      refine List.nodup_cons.mpr ⟨?_, ih (y :: seen)⟩
      rw [mem_dedupInsertAll]
      rintro ⟨_, hs⟩
      exact hs (List.mem_cons_self y seen)

theorem dedupInsertAll_eq_self :
    ∀ (l seen : List String), l.Nodup → (∀ x ∈ l, x ∉ seen) → dedupInsertAll seen l = l := by
  intro l
  induction l with
  | nil => intro seen _ _; rfl
  | cons y ys ih =>
    intro seen hnd hs
    have hy : y ∉ seen := hs y (List.mem_cons_self y ys)
    simp only [dedupInsertAll, if_neg hy]
    congr 1
    apply ih (y :: seen) (List.nodup_cons.mp hnd).2
    intro x hx hc
    rcases List.mem_cons.mp hc with rfl | hc2
    · exact (List.nodup_cons.mp hnd).1 hx
    · exact hs x (List.mem_cons_of_mem y hx) hc2

theorem dedupInsertAll_nil_of_subset :
    ∀ (a seen : List String), (∀ x ∈ a, x ∈ seen) → dedupInsertAll seen a = [] := by
  intro a
  induction a with
  | nil => intro seen _; rfl
  | cons y ys ih =>
    intro seen h
    have hy : y ∈ seen := h y (List.mem_cons_self y ys)
    simp only [dedupInsertAll, if_pos hy]
    exact ih seen (fun x hx => h x (List.mem_cons_of_mem y hx))

theorem dedupInsertAll_append_of_covered :
    ∀ (l a seen : List String), (∀ x ∈ a, x ∈ l ∨ x ∈ seen) →
      dedupInsertAll seen (l ++ a) = dedupInsertAll seen l := by
  intro l
  induction l with
  | nil =>
    intro a seen h
    rw [List.nil_append]
    exact dedupInsertAll_nil_of_subset a seen
      (fun x hx => (h x hx).resolve_left (by simp))
  | cons y ys ih =>
    intro a seen h
    by_cases hy : y ∈ seen
    · simp only [List.cons_append, dedupInsertAll, if_pos hy]
      apply ih
      intro x hx
      rcases h x hx with hx2 | hx2
      · rcases List.mem_cons.mp hx2 with rfl | h3
        · exact Or.inr hy
        · exact Or.inl h3
      · exact Or.inr hx2
    · simp only [List.cons_append, dedupInsertAll, if_neg hy]
      congr 1
      apply ih
      intro x hx
      rcases h x hx with hx2 | hx2
      · rcases List.mem_cons.mp hx2 with rfl | h3
        · exact Or.inr (List.mem_cons_self x seen)
        · exact Or.inl h3
      · exact Or.inr (List.mem_cons_of_mem y hx2)

theorem mem_dedupKeepFirst (x : String) (l : List String) :
    x ∈ dedupKeepFirst l ↔ x ∈ l := by
  simp [dedupKeepFirst, mem_dedupInsertAll]

theorem nodup_dedupKeepFirst (l : List String) : (dedupKeepFirst l).Nodup :=
  nodup_dedupInsertAll l []

theorem dedupKeepFirst_eq_self (l : List String) (h : l.Nodup) : dedupKeepFirst l = l :=
  dedupInsertAll_eq_self l [] h (by simp)

theorem dedupKeepFirst_append_of_subset (l a : List String) (h : ∀ x ∈ a, x ∈ l) :
    dedupKeepFirst (l ++ a) = dedupKeepFirst l :=
  dedupInsertAll_append_of_covered l a [] (fun x hx => Or.inl (h x hx))

theorem mem_dedupUnion (x : String) (b a : List String) :
    x ∈ dedupUnion b a ↔ x ∈ b ∨ x ∈ a := by
  simp [dedupUnion, mem_dedupKeepFirst]

theorem nodup_dedupUnion (b a : List String) : (dedupUnion b a).Nodup :=
  nodup_dedupKeepFirst _

theorem dedupUnion_absorb (b a : List String) :
    dedupUnion (dedupUnion b a) a = dedupUnion b a := by
  unfold dedupUnion
  rw [dedupKeepFirst_append_of_subset _ a
    (fun x hx => (mem_dedupKeepFirst x (b ++ a)).mpr (List.mem_append.mpr (Or.inr hx)))]
  exact dedupKeepFirst_eq_self _ (nodup_dedupKeepFirst _)

/-! ### Skipped update entries -/

theorem mergeStep_skip (r : Bool) (m : PropMap) (kv : String × Option PropValue)
    (h : kv.1 = "modified" ∨ kv.1 = "created" ∨ kv.2 = none) : mergeStep r m kv = m := by
  funext k
  by_cases hk : k = kv.1
  · subst hk
    simp only [mergeStep, if_pos rfl]
    cases huv : kv.2 with
    | none => rfl
    | some v =>
      have hcm : kv.1 = "created" ∨ kv.1 = "modified" := by
        rcases h with h | h | h
        · exact Or.inr h
        · exact Or.inl h
        · rw [h] at huv; exact absurd huv (by simp)
      simp [stepKey, hcm]
  · simp [mergeStep, hk]

theorem foldl_mergeStep_filter_timestamps (r : Bool)
    (us : List (String × Option PropValue)) (m : PropMap) :
    (us.filter fun e => e.1 != "modified" && e.1 != "created").foldl (mergeStep r) m
      = us.foldl (mergeStep r) m := by
  induction us generalizing m with
  | nil => rfl
  | cons e us ih =>
    by_cases he : (e.1 != "modified" && e.1 != "created") = true
    · rw [List.filter_cons_of_pos
          (p := fun x : String × Option PropValue => x.1 != "modified" && x.1 != "created") he,
        List.foldl_cons, List.foldl_cons, ih]
    · have hcm : e.1 = "modified" ∨ e.1 = "created" := by
        rcases Bool.and_eq_false_iff.mp (Bool.not_eq_true _ |>.mp he) with h | h
        · exact Or.inl (by simpa using h)
        · exact Or.inr (by simpa using h)
      rw [List.filter_cons_of_neg
          (p := fun x : String × Option PropValue => x.1 != "modified" && x.1 != "created")
          (by simpa using he),
        List.foldl_cons, mergeStep_skip r m e (by tauto), ih]

/-- Claim C2: mergeProperties ignores caller-supplied values under the keys
modified and created, and sets the modified field of the result to the
current timestamp exactly once, whatever the updates are: the result under
the key modified is the timestamp taken at merge time, and dropping every
modified or created entry from the updates does not change the result at
all. Hence the modified value returned by a successful update is never
taken from the input. The ISO-8601 string new Date().toISOString() is
modelled as the parameter now. -/
theorem c2_modified_never_from_input (existing : PropMap)
    (updates : List (String × Option PropValue)) (replaceArrays : Bool) (now : String) :
    mergeProperties existing updates replaceArrays now "modified" = some (.str now) ∧
    mergeProperties existing
        (updates.filter fun e => e.1 != "modified" && e.1 != "created")
        replaceArrays now
      = mergeProperties existing updates replaceArrays now := by
  constructor
  · simp [mergeProperties, setKey]
  · unfold mergeProperties
    rw [foldl_mergeStep_filter_timestamps]

/-- Claim C10: a merge never deletes a property, and every existing key
that does not occur in the updates, other than modified, keeps its
existing value unchanged, for either value of the replace flag. -/
theorem c10_merge_frame (existing : PropMap) (updates : List (String × Option PropValue))
    (replaceArrays : Bool) (now : String) (k : String) (v : PropValue)
    (hex : existing k = some v) :
    (mergeProperties existing updates replaceArrays now k).isSome ∧
    (k ∉ updates.map Prod.fst → k ≠ "modified" →
      mergeProperties existing updates replaceArrays now k = some v) := by
  constructor
  · unfold mergeProperties
    by_cases hk : k = "modified"
    · subst hk; simp [setKey]
    · rw [setKey_ne _ _ _ _ hk]
      exact foldl_mergeStep_isSome _ _ _ _ (by simp [hex])
  · intro hmem hk
    unfold mergeProperties
    rw [setKey_ne _ _ _ _ hk,
      foldl_mergeStep_not_mem _ _ _ _ (fun e he heq => hmem (List.mem_map.mpr ⟨e, he, heq⟩))]
    exact hex

/-- Witness for C10 at a concrete input. -/
theorem c10_merge_frame_witness :
    mergeProperties (fun k => if k = "title" then some (.str "t") else none)
        [("tags", some (.arr ["x"]))] false "2025-01-01T00:00:00.000Z" "title"
      = some (.str "t") :=
  (c10_merge_frame (fun k => if k = "title" then some (.str "t") else none)
    [("tags", some (.arr ["x"]))] false "2025-01-01T00:00:00.000Z" "title"
    (.str "t") (by decide)).2 (by decide) (by decide)

/-- Claim C1: when the existing value and the update value under a common
key are both arrays (the key being an ordinary property key, hence neither
of the system timestamp keys, and occurring once among the updates as a JS
object key does), merging with replace = false binds the key to the
duplicate-free set-union of the two arrays, and merging with replace = true
binds it to exactly the new array. -/
theorem c1_array_union_or_replace (existing : PropMap)
    (us1 us2 : List (String × Option PropValue)) (k : String) (a b : List String)
    (now : String) (hex : existing k = some (.arr b))
    (h1 : ∀ e ∈ us1, e.1 ≠ k) (h2 : ∀ e ∈ us2, e.1 ≠ k)
    (hkc : k ≠ "created") (hkm : k ≠ "modified") :
    mergeProperties existing (us1 ++ (k, some (.arr a)) :: us2) false now k
        = some (.arr (dedupUnion b a)) ∧
    mergeProperties existing (us1 ++ (k, some (.arr a)) :: us2) true now k
        = some (.arr a) ∧
    (dedupUnion b a).Nodup ∧
    (∀ x, x ∈ dedupUnion b a ↔ x ∈ b ∨ x ∈ a) := by
  have key : ∀ r : Bool,
      mergeProperties existing (us1 ++ (k, some (.arr a)) :: us2) r now k
        = stepKey r k (some (.arr b)) (some (.arr a)) := by
    intro r
    unfold mergeProperties
    have h3 : (mergeStep r (us1.foldl (mergeStep r) existing) (k, some (.arr a))) k
        = stepKey r k ((us1.foldl (mergeStep r) existing) k) (some (.arr a)) := by
      simp [mergeStep]
    rw [setKey_ne _ _ _ _ hkm, List.foldl_append, List.foldl_cons,
      foldl_mergeStep_not_mem r us2 _ k h2, h3,
      foldl_mergeStep_not_mem r us1 existing k h1, hex]
  have hstep : ∀ r : Bool, stepKey r k (some (.arr b)) (some (.arr a))
      = some (.arr (if r then a else dedupUnion b a)) := by
    intro r
    simp [stepKey, hkc, hkm]
  refine ⟨?_, ?_, nodup_dedupUnion b a, fun x => mem_dedupUnion x b a⟩
  · rw [key false, hstep false]; simp
  · rw [key true, hstep true]; simp

/-- Witness for C1: existing tags = [a, b], update tags = [b, c]; without
replace the result is the set-union [a, b, c]; with replace it is exactly
[b, c]. -/
theorem c1_array_union_or_replace_witness :
    mergeProperties (fun k => if k = "tags" then some (.arr ["a", "b"]) else none)
        [("tags", some (.arr ["b", "c"]))] false "2025-01-01T00:00:00.000Z" "tags"
      = some (.arr ["a", "b", "c"]) ∧
    mergeProperties (fun k => if k = "tags" then some (.arr ["a", "b"]) else none)
        [("tags", some (.arr ["b", "c"]))] true "2025-01-01T00:00:00.000Z" "tags"
      = some (.arr ["b", "c"]) := by
  have h := c1_array_union_or_replace
    (fun k => if k = "tags" then some (.arr ["a", "b"]) else none)
    [] [] "tags" ["b", "c"] ["a", "b"] "2025-01-01T00:00:00.000Z"
    (by decide) (by simp) (by simp) (by decide) (by decide)
  exact ⟨h.1.trans (by decide), h.2.1⟩

/-! ### Idempotence of re-applying an update -/

theorem lookup_isSome_of_mem :
    ∀ (o : List (String × String)) (p : String × String), p ∈ o → (o.lookup p.1).isSome := by
  intro o
  induction o with
  | nil => intro p h; cases h
  | cons q qs ih =>
    intro p h
    obtain ⟨q1, q2⟩ := q
    rcases List.mem_cons.mp h with rfl | h2
    · simp [List.lookup]
    · cases hb : p.1 == q1 with
      | true => simp [List.lookup, hb]
      | false => simpa [List.lookup, hb] using ih p h2

theorem objMerge_self (o : List (String × String)) : objMerge o o = o := by
  unfold objMerge
  have h : o.filter (fun p => (o.lookup p.1).isNone) = [] := by
    rw [List.filter_eq_nil_iff]
    intro p hp hc
    have h2 := lookup_isSome_of_mem o p hp
    rw [Option.isNone_iff_eq_none] at hc
    rw [hc] at h2
    simp at h2
  rw [h, List.nil_append]

theorem objMerge_nil (o : List (String × String)) : objMerge [] o = o := by
  simp [objMerge]

theorem foldl_mergeStep_unique (r : Bool) (us1 us2 : List (String × Option PropValue))
    (k : String) (uv : Option PropValue) (m : PropMap)
    (h1 : ∀ e ∈ us1, e.1 ≠ k) (h2 : ∀ e ∈ us2, e.1 ≠ k) :
    ((us1 ++ (k, uv) :: us2).foldl (mergeStep r) m) k = stepKey r k (m k) uv := by
  have h3 : (mergeStep r (us1.foldl (mergeStep r) m) (k, uv)) k
      = stepKey r k ((us1.foldl (mergeStep r) m) k) uv := by
    simp [mergeStep]
  rw [List.foldl_append, List.foldl_cons, foldl_mergeStep_not_mem r us2 _ k h2, h3,
    foldl_mergeStep_not_mem r us1 m k h1]

theorem exists_split_of_nodup_keys (us : List (String × Option PropValue)) (k : String)
    (uv : Option PropValue) (hmem : (k, uv) ∈ us) (hnd : (us.map Prod.fst).Nodup) :
    ∃ us1 us2, us = us1 ++ (k, uv) :: us2 ∧ (∀ e ∈ us1, e.1 ≠ k) ∧ (∀ e ∈ us2, e.1 ≠ k) := by
  obtain ⟨us1, us2, rfl⟩ := List.append_of_mem hmem
  rw [List.map_append, List.map_cons] at hnd
  rcases List.nodup_append.mp hnd with ⟨_, hnd2, hdis⟩
  refine ⟨us1, us2, rfl, ?_, ?_⟩
  · intro e he heq
    exact hdis (List.mem_map.mpr ⟨e, he, heq⟩) (by simp)
  · have hk := (List.nodup_cons.mp hnd2).1
    intro e he heq
    exact hk (List.mem_map.mpr ⟨e, he, heq⟩)

theorem stepKey_false_idem (k : String) (cur uv : Option PropValue)
    (hgrow : ∀ a, uv = some (.arr a) → ∃ b, cur = some (.arr b))
    (hcollide : ∀ v w, uv = some v → cur = some w → (∃ a, v = .arr a) ∧ (∃ b, w = .arr b)) :
    stepKey false k (stepKey false k cur uv) uv = stepKey false k cur uv := by
  cases uv with
  | none => rfl
  | some v =>
    by_cases hcm : k = "created" ∨ k = "modified"
    · simp [stepKey, hcm]
    · cases v with
      | arr a =>
        obtain ⟨b, hb⟩ := hgrow a rfl
        subst hb
        have h1 : stepKey false k (some (.arr b)) (some (.arr a))
            = some (.arr (dedupUnion b a)) := by simp [stepKey, hcm]
        have h2 : stepKey false k (some (.arr (dedupUnion b a))) (some (.arr a))
            = some (.arr (dedupUnion (dedupUnion b a) a)) := by simp [stepKey, hcm]
        rw [h1, h2, dedupUnion_absorb]
      | str s =>
        have hcur : cur = none := by
          cases hc : cur with
          | none => rfl
          | some w =>
            obtain ⟨a, ha⟩ := (hcollide _ w rfl hc).1
            exact absurd ha (by simp)
        subst hcur
        have h1 : stepKey false k (none : Option PropValue) (some (.str s))
            = some (.str s) := by simp [stepKey, hcm, isObjectType]
        rw [h1]
        simp [stepKey, hcm, isObjectType]
      | obj o =>
        have hcur : cur = none := by
          cases hc : cur with
          | none => rfl
          | some w =>
            obtain ⟨a, ha⟩ := (hcollide _ w rfl hc).1
            exact absurd ha (by simp)
        subst hcur
        by_cases hk : k = "custom"
        · have h1 : stepKey false k (none : Option PropValue) (some (.obj o))
              = some (.obj o) := by
            simp [stepKey, hcm, hk, isObjectType, customMergeVal, toObjEntries, objMerge_nil]
          rw [h1]
          simp [stepKey, hcm, hk, isObjectType, customMergeVal, toObjEntries, objMerge_self]
        · have h1 : stepKey false k (none : Option PropValue) (some (.obj o))
              = some (.obj o) := by simp [stepKey, hcm, hk, isObjectType]
          rw [h1]
          simp [stepKey, hcm, hk, isObjectType]

/-- Claim C9: re-applying the same update with replace = false is
idempotent away from the modified timestamp, on inputs where every
update entry carried by a key the existing mapping also binds is an
array-to-array merge, and every array-valued update entry meets an
existing array (arrays only grow via union); the update keys are distinct,
as the keys of a JS object are. -/
theorem c9_merge_idempotent (existing : PropMap)
    (updates : List (String × Option PropValue)) (now1 now2 : String)
    (hnd : (updates.map Prod.fst).Nodup)
    (hcollide : ∀ k v w, (k, some v) ∈ updates → existing k = some w →
        (∃ a, v = PropValue.arr a) ∧ (∃ b, w = PropValue.arr b))
    (hgrow : ∀ k a, (k, some (PropValue.arr a)) ∈ updates →
        ∃ b, existing k = some (PropValue.arr b)) :
    ∀ k, k ≠ "modified" →
      mergeProperties (mergeProperties existing updates false now1) updates false now2 k
        = mergeProperties existing updates false now1 k := by
  intro k hk
  unfold mergeProperties
  rw [setKey_ne _ _ _ _ hk, setKey_ne _ _ _ _ hk]
  by_cases hmem : k ∈ updates.map Prod.fst
  · obtain ⟨e, he, heq⟩ := List.mem_map.mp hmem
    have hmem2 : (k, e.2) ∈ updates := by
      rw [← heq]
      simpa using he
    obtain ⟨us1, us2, hsplit, h1, h2⟩ := exists_split_of_nodup_keys updates k e.2 hmem2 hnd
    rw [hsplit, foldl_mergeStep_unique _ _ _ _ _ _ h1 h2,
      foldl_mergeStep_unique _ _ _ _ _ _ h1 h2, setKey_ne _ _ _ _ hk,
      foldl_mergeStep_unique _ _ _ _ _ _ h1 h2]
    apply stepKey_false_idem
    · intro a ha
      exact hgrow k a (ha ▸ hmem2)
    · intro v w hv hw
      exact hcollide k v w (hv ▸ hmem2) hw
  · have hfree : ∀ e ∈ updates, e.1 ≠ k :=
      fun e he heq => hmem (List.mem_map.mpr ⟨e, he, heq⟩)
    rw [foldl_mergeStep_not_mem _ _ _ _ hfree, setKey_ne _ _ _ _ hk,
      foldl_mergeStep_not_mem _ _ _ _ hfree]

/-- Witness for C9: existing tags = [a, b], update tags = [b, c]; merging
the update a second time leaves the tags value of the first merge
unchanged. -/
theorem c9_merge_idempotent_witness :
    mergeProperties
        (mergeProperties (fun k => if k = "tags" then some (.arr ["a", "b"]) else none)
          [("tags", some (.arr ["b", "c"]))] false "2025-01-01T00:00:00.000Z")
        [("tags", some (.arr ["b", "c"]))] false "2025-01-02T00:00:00.000Z" "tags"
      = mergeProperties (fun k => if k = "tags" then some (.arr ["a", "b"]) else none)
          [("tags", some (.arr ["b", "c"]))] false "2025-01-01T00:00:00.000Z" "tags" :=
  c9_merge_idempotent (fun k => if k = "tags" then some (.arr ["a", "b"]) else none)
    [("tags", some (.arr ["b", "c"]))] "2025-01-01T00:00:00.000Z" "2025-01-02T00:00:00.000Z"
    (by decide)
    (by
      intro k v w h1 h2
      simp only [List.mem_singleton, Prod.mk.injEq, Option.some.injEq] at h1
      obtain ⟨rfl, rfl⟩ := h1
      have hex : (fun k => if k = "tags" then some (PropValue.arr ["a", "b"]) else none) "tags"
          = some (PropValue.arr ["a", "b"]) := by decide
      rw [hex, Option.some.injEq] at h2
      exact ⟨⟨["b", "c"], rfl⟩, ⟨["a", "b"], h2.symm⟩⟩)
    (by
      intro k a h1
      simp only [List.mem_singleton, Prod.mk.injEq, Option.some.injEq] at h1
      obtain ⟨rfl, _⟩ := h1
      exact ⟨["a", "b"], by decide⟩)
    "tags" (by decide)

/-! ### Strict update validation (PropertyUpdateSchema, zod object in default
strip mode) -/

/-- The status enum of the property schema. -/
def statusEnum : List String := ["draft", "in-progress", "review", "complete"]

/-- Modelled from the spec: the URI-shaped check z.string().url() is
delegated to the zod library, which is outside this repository; modelled as
requiring an http or https scheme. No claim below depends on its exact
behaviour. -/
def isUrl (s : String) : Bool := s.startsWith "http://" || s.startsWith "https://"

/-- The recognized top-level fields of PropertyUpdateSchema whose declared
type is a plain string. -/
def stringKeys : List String := ["title", "author", "version", "platform"]

/-- The recognized top-level fields of PropertyUpdateSchema whose declared
type is an array of plain strings. -/
def stringArrayKeys : List String := ["type", "tags", "dependencies", "sources", "papers"]

/-- The violations zod reports for a single recognized field of
PropertyUpdateSchema, and none for a field outside the schema: a zod object
in its default mode strips unknown keys instead of rejecting them. -/
def checkField (k : String) (v : PropValue) : List String :=
  if k ∈ stringKeys then
    match v with
    | .str _ => []
    | _ => [k ++ ": expected string"]
  else if k ∈ stringArrayKeys then
    match v with
    | .arr _ => []
    | _ => [k ++ ": expected array of strings"]
  else if k = "status" then
    match v with
    | .arr xs => xs.filterMap fun x =>
        if x ∈ statusEnum then none else some (k ++ ": invalid enum value " ++ x)
    | _ => [k ++ ": expected array of status values"]
  else if k = "repository" then
    match v with
    | .str s => if isUrl s then [] else [k ++ ": invalid url"]
    | _ => [k ++ ": expected string"]
  else if k = "urls" then
    match v with
    | .arr xs => xs.filterMap fun x =>
        if isUrl x then none else some (k ++ ": invalid url " ++ x)
    | _ => [k ++ ": expected array of urls"]
  else if k = "custom" then
    match v with
    | .obj _ => []
    | _ => [k ++ ": expected object"]
  else []

/-- Whether a key is one of the recognized top-level fields of
PropertyUpdateSchema. -/
def isKnownKey (k : String) : Bool :=
  decide (k ∈ stringKeys) || decide (k ∈ stringArrayKeys) || decide (k = "status")
    || decide (k = "repository") || decide (k = "urls") || decide (k = "custom")

/-- The result shape of PropertyManager.validateProperties. -/
structure ValidationResult where
  valid : Bool
  errors : List String
  deriving DecidableEq, Repr

/-- PropertyManager.validateProperties (manager.ts lines 90-103):
PropertyUpdateSchema.safeParse collecting every violation; valid exactly
when no violation was reported. -/
def validateProperties (props : List (String × PropValue)) : ValidationResult :=
  let errs := props.flatMap fun e => checkField e.1 e.2
  ⟨errs.isEmpty, errs⟩

theorem checkField_unknown (k : String) (v : PropValue) (h : isKnownKey k = false) :
    checkField k v = [] := by
  simp only [isKnownKey, Bool.or_eq_false_iff, decide_eq_false_iff_not] at h
  obtain ⟨⟨⟨⟨⟨h1, h2⟩, h3⟩, h4⟩, h5⟩, h6⟩ := h
  simp [checkField, h1, h2, h3, h4, h5, h6]

/-- Counterexample to claim C3 as stated: an input whose only top-level
field is outside the recognized property fields is reported valid with no
errors by validateProperties; the strict update-validation path does not
reject unknown top-level fields (PropertyUpdateSchema is a zod object in
its default strip mode). -/
theorem c3_counterexample :
    validateProperties [("unknownField", .str "x")] = ⟨true, []⟩ := by
  decide

/-- Claim C3 as amended: validateProperties ignores unknown top-level
fields rather than rejecting them: its result is unchanged when all fields
outside the recognized property schema are removed from the input, so an
input whose recognized fields conform is reported valid even in the
presence of unknown top-level fields. -/
theorem c3_unknown_fields_ignored (props : List (String × PropValue)) :
    validateProperties (props.filter fun e => isKnownKey e.1) = validateProperties props := by
  unfold validateProperties
  have h : (props.filter fun e => isKnownKey e.1).flatMap (fun e => checkField e.1 e.2)
      = props.flatMap fun e => checkField e.1 e.2 := by
    induction props with
    | nil => rfl
    | cons e ps ih =>
      by_cases he : isKnownKey e.1 = true
      · rw [List.filter_cons_of_pos (p := fun e : String × PropValue => isKnownKey e.1) he,
          List.flatMap_cons, List.flatMap_cons, ih]
      · rw [List.filter_cons_of_neg (p := fun e : String × PropValue => isKnownKey e.1)
            (by simpa using he),
          List.flatMap_cons, checkField_unknown e.1 e.2 (Bool.not_eq_true _ |>.mp he), ih,
          List.nil_append]
  rw [h]

/-! ### Rate limiter (fixed-window counter per key) -/

/-- A rate-limit window: per-key record of count and resetTime. -/
structure Window where
  count : Nat
  resetTime : Nat
  deriving DecidableEq, Repr

/-- Rate limiter configuration: window length in milliseconds and maximum
requests per window. -/
structure RateLimitConfig where
  windowMs : Nat
  maxRequests : Nat
  deriving DecidableEq, Repr

/-- The requestCounts map of the RateLimiter, keyed by tool name. -/
abbrev RateState := String → Option Window

/-- RateLimiter.checkRateLimit: if no window exists for the key, or the
current window has expired (now strictly past resetTime), start a new
window with count 1 and resetTime = now + windowMs and allow; otherwise
deny when count has reached maxRequests, else increment and allow. The
call time Date.now() is passed in as now. -/
def checkRateLimit (cfg : RateLimitConfig) (now : Nat) (key : String) (st : RateState) :
    Bool × RateState :=
  match st key with
  | none => (true, fun k => if k = key then some ⟨1, now + cfg.windowMs⟩ else st k)
  | some w =>
    if now > w.resetTime then
      (true, fun k => if k = key then some ⟨1, now + cfg.windowMs⟩ else st k)
    else if w.count ≥ cfg.maxRequests then
      (false, st)
    else
      (true, fun k => if k = key then some ⟨w.count + 1, w.resetTime⟩ else st k)

/-- A sequence of checkRateLimit calls for one key at the given times,
collecting the allowed/denied outcomes and threading the state. -/
def runCalls (cfg : RateLimitConfig) (key : String) (st : RateState) :
    List Nat → List Bool × RateState
  | [] => ([], st)
  | t :: ts =>
    let r := checkRateLimit cfg t key st
    let rest := runCalls cfg key r.2 ts
    (r.1 :: rest.1, rest.2)

theorem runCalls_append (cfg : RateLimitConfig) (key : String) (ts1 ts2 : List Nat)
    (st : RateState) :
    runCalls cfg key st (ts1 ++ ts2)
      = ((runCalls cfg key st ts1).1 ++ (runCalls cfg key (runCalls cfg key st ts1).2 ts2).1,
         (runCalls cfg key (runCalls cfg key st ts1).2 ts2).2) := by
  induction ts1 generalizing st with
  | nil => simp [runCalls]
  | cons t ts ih => simp [runCalls, ih]

theorem runCalls_all_allowed (cfg : RateLimitConfig) (key : String) :
    ∀ (ts : List Nat) (st : RateState) (c rt : Nat), st key = some ⟨c, rt⟩ →
      (∀ t ∈ ts, t ≤ rt) → c + ts.length ≤ cfg.maxRequests →
      (runCalls cfg key st ts).1 = List.replicate ts.length true ∧
      (runCalls cfg key st ts).2 key = some ⟨c + ts.length, rt⟩ := by
  intro ts
  induction ts with
  | nil => intro st c rt hst _ _; simpa [runCalls] using hst
  | cons t ts ih =>
    intro st c rt hst hts hle
    rw [List.length_cons] at hle
    have hnow : ¬ t > rt := by
      have := hts t (List.mem_cons_self t ts)
      omega
    have hcnt : ¬ c ≥ cfg.maxRequests := by omega
    have hstep : checkRateLimit cfg t key st
        = (true, fun k => if k = key then some ⟨c + 1, rt⟩ else st k) := by
      simp [checkRateLimit, hst, hnow, hcnt]
    have hst2 : (fun k => if k = key then some (Window.mk (c + 1) rt) else st k) key
        = some ⟨c + 1, rt⟩ := by simp
    obtain ⟨ho, hs⟩ := ih (fun k => if k = key then some ⟨c + 1, rt⟩ else st k) (c + 1) rt
      hst2 (fun x hx => hts x (List.mem_cons_of_mem t hx)) (by omega)
    refine ⟨?_, ?_⟩
    · simp [runCalls, hstep, ho, List.replicate_succ]
    · simp only [runCalls, hstep]
      rw [hs]
      congr 2
      rw [List.length_cons]
      omega

theorem checkRateLimit_denied (cfg : RateLimitConfig) (now : Nat) (key : String)
    (st : RateState) (c rt : Nat) (hst : st key = some ⟨c, rt⟩) (hnow : now ≤ rt)
    (hcnt : c ≥ cfg.maxRequests) : checkRateLimit cfg now key st = (false, st) := by
  have h : ¬ now > rt := by omega
  simp [checkRateLimit, hst, h, hcnt]

/-- Counterexample to claim C4 as stated: with maxRequests = N = 0 the
(N+1)-th call inside the window, which is the very first call, is allowed
rather than denied (a fresh window is always created with count 1), and
the window count 1 exceeds N = 0 although the triggering call was not
rejected. -/
theorem c4_counterexample :
    (checkRateLimit ⟨1000, 0⟩ 0 "tool" (fun _ => none)).1 = true ∧
    (checkRateLimit ⟨1000, 0⟩ 0 "tool" (fun _ => none)).2 "tool" = some ⟨1, 1000⟩ ∧
    (1 : Nat) > 0 := by
  refine ⟨by decide, by decide, by decide⟩

/-- Claim C4 as amended: for maxRequests = N at least 1 (written N = M + 1),
the first N calls of a window are allowed and the (N+1)-th call inside the
same window is denied; a call made strictly after the resetTime of the
current window is allowed and starts a fresh window with count 1 and
resetTime = now + windowMs; and a state whose window counts are bounded by
N keeps that bound across any call, so a window count never exceeds N. -/
theorem c4_rate_limiter (cfg : RateLimitConfig) (M : Nat)
    (hmax : cfg.maxRequests = M + 1) :
    (∀ (key : String) (st : RateState) (t0 : Nat) (ts : List Nat) (tl : Nat),
      st key = none → ts.length = M →
      (∀ t ∈ ts, t ≤ t0 + cfg.windowMs) → tl ≤ t0 + cfg.windowMs →
      (runCalls cfg key st (t0 :: ts ++ [tl])).1
        = List.replicate (M + 1) true ++ [false]) ∧
    (∀ (key : String) (st : RateState) (now c rt : Nat),
      st key = some ⟨c, rt⟩ → rt < now →
      (checkRateLimit cfg now key st).1 = true ∧
      (checkRateLimit cfg now key st).2 key = some ⟨1, now + cfg.windowMs⟩) ∧
    (∀ (key : String) (st : RateState) (now : Nat),
      (∀ k w, st k = some w → w.count ≤ cfg.maxRequests) →
      ∀ k w, (checkRateLimit cfg now key st).2 k = some w → w.count ≤ cfg.maxRequests) := by
  refine ⟨?_, ?_, ?_⟩
  · intro key st t0 ts tl hst hlen hts htl
    have hfresh : checkRateLimit cfg t0 key st
        = (true, fun k => if k = key then some ⟨1, t0 + cfg.windowMs⟩ else st k) := by
      simp [checkRateLimit, hst]
    have hst1 : (fun k => if k = key then some (Window.mk 1 (t0 + cfg.windowMs)) else st k) key
        = some ⟨1, t0 + cfg.windowMs⟩ := by simp
    obtain ⟨ho, hs⟩ := runCalls_all_allowed cfg key ts
      (fun k => if k = key then some ⟨1, t0 + cfg.windowMs⟩ else st k) 1 (t0 + cfg.windowMs)
      hst1 hts (by omega)
    have hdeny := checkRateLimit_denied cfg tl key _ (1 + ts.length) (t0 + cfg.windowMs)
      hs htl (by omega)
    rw [show (t0 :: ts ++ [tl]) = (t0 :: ts) ++ [tl] by simp,
      runCalls_append]
    simp only [runCalls, hfresh, hdeny, ho, hs]
    rw [hlen]
    simp [List.replicate_succ]
  · intro key st now c rt hst hrt
    have h : now > rt := hrt
    constructor <;> simp [checkRateLimit, hst, h]
  · intro key st now hbound k w hk
    unfold checkRateLimit at hk
    cases hcase : st key with
    | none =>
      rw [hcase] at hk
      simp only at hk
      by_cases hkk : k = key
      · rw [if_pos hkk] at hk
        cases hk
        show (1 : Nat) ≤ cfg.maxRequests
        omega
      · rw [if_neg hkk] at hk
        exact hbound k w hk
    | some win =>
      rw [hcase] at hk
      simp only at hk
      by_cases h1 : now > win.resetTime
      · rw [if_pos h1] at hk
        simp only at hk
        by_cases hkk : k = key
        · rw [if_pos hkk] at hk
          cases hk
          show (1 : Nat) ≤ cfg.maxRequests
          omega
        · rw [if_neg hkk] at hk
          exact hbound k w hk
      · rw [if_neg h1] at hk
        by_cases h2 : win.count ≥ cfg.maxRequests
        · rw [if_pos h2] at hk
          exact hbound k w hk
        · rw [if_neg h2] at hk
          simp only at hk
          by_cases hkk : k = key
          · rw [if_pos hkk] at hk
            cases hk
            show win.count + 1 ≤ cfg.maxRequests
            omega
          · rw [if_neg hkk] at hk
            exact hbound k w hk

/-- Witness for C4 at maxRequests = 2, windowMs = 50: three calls inside
one window give allowed, allowed, denied; a call after the reset is
allowed again with a fresh window. -/
theorem c4_rate_limiter_witness :
    (runCalls ⟨50, 2⟩ "tool" (fun _ => none) [0, 10, 20]).1
      = List.replicate 2 true ++ [false] ∧
    (checkRateLimit ⟨50, 2⟩ 60 "tool" (fun k => if k = "tool" then some ⟨2, 50⟩ else none)).1
        = true ∧
    (checkRateLimit ⟨50, 2⟩ 60 "tool"
        (fun k => if k = "tool" then some ⟨2, 50⟩ else none)).2 "tool" = some ⟨1, 110⟩ := by
  have h := c4_rate_limiter ⟨50, 2⟩ 1 rfl
  refine ⟨?_, ?_, ?_⟩
  · exact h.1 "tool" (fun _ => none) 0 [10] 20 (by decide) (by decide) (by decide) (by decide)
  · exact (h.2.1 "tool" (fun k => if k = "tool" then some ⟨2, 50⟩ else none) 60 2 50
      (by decide) (by decide)).1
  · exact (h.2.1 "tool" (fun k => if k = "tool" then some ⟨2, 50⟩ else none) 60 2 50
      (by decide) (by decide)).2

/-! ### Tool dispatch pipeline (CallToolRequest handler) -/

/-- The error codes of the McpErrorCode enumeration used by the dispatch
pipeline. -/
def INTERNAL_SERVER_ERROR : Nat := 50000

def TIMEOUT : Nat := 50800

def BAD_REQUEST : Nat := 40000

def NOT_FOUND : Nat := 40400

def RATE_LIMIT_EXCEEDED : Nat := 40900

def SUCCESS_NO_CONTENT : Nat := 20400

/-- A domain error (ObsidianError): a code and a message. -/
structure ObsError where
  code : Nat
  message : String
  deriving DecidableEq, Repr

/-- The stations a call passes through in the CallToolRequest handler, in
the order the code performs them: handler resolution on the received call,
rate-limit enforcement, argument validation, dispatch to the handler, and
the terminal outcome. -/
inductive Step where
  | received
  | rateChecked
  | validated
  | dispatched
  | completed
  | failed
  deriving DecidableEq, Repr

/-- The error normalization of the catch block of the CallToolRequest
handler: a domain error whose code is SUCCESS_NO_CONTENT becomes a
synthetic success response with a single text block; every other domain
error propagates unchanged. -/
def normalizeDomainError (e : ObsError) : Except ObsError (List String) :=
  if e.code = SUCCESS_NO_CONTENT then Except.ok ["Operation completed successfully"]
  else Except.error e

/-- The CallToolRequest handler pipeline, with the collaborators abstracted
into its inputs: whether the tool name resolves in the handler map, whether
the rate limiter allows the call, whether validateToolArguments accepts the
arguments, and the outcome of racing the handler against the timeout (a
timeout is an error outcome carrying TIMEOUT). The first component records
the stations passed, in order; the second is the response or error
returned. The code consults the rate limiter before validating arguments. -/
def callPipeline (name : String) (knownTool rateAllowed argsValid : Bool)
    (outcome : Except ObsError (List String)) : List Step × Except ObsError (List String) :=
  if knownTool = false then
    ([Step.received, Step.failed], Except.error ⟨NOT_FOUND, "Unknown tool: " ++ name⟩)
  else if rateAllowed = false then
    ([Step.received, Step.rateChecked, Step.failed],
     Except.error ⟨RATE_LIMIT_EXCEEDED, "Rate limit exceeded for tool: " ++ name⟩)
  else if argsValid = false then
    ([Step.received, Step.rateChecked, Step.validated, Step.failed],
     Except.error ⟨BAD_REQUEST, "Invalid tool arguments"⟩)
  else
    match outcome with
    | Except.ok c =>
      ([Step.received, Step.rateChecked, Step.validated, Step.dispatched, Step.completed],
       Except.ok c)
    | Except.error e =>
      match normalizeDomainError e with
      | Except.ok c =>
        ([Step.received, Step.rateChecked, Step.validated, Step.dispatched, Step.completed],
         Except.ok c)
      | Except.error e2 =>
        ([Step.received, Step.rateChecked, Step.validated, Step.dispatched, Step.failed],
         Except.error e2)

/-- Counterexample to claim C5 as stated: for a known tool whose rate
limit allows the call but whose arguments are invalid, the trace shows the
rate limiter consulted strictly before argument validation, so a call
rejected for invalid arguments has already consulted the rate limiter;
the claimed order Received, Validated, RateChecked does not hold. -/
theorem c5_counterexample :
    (callPipeline "find_in_file" true true false (Except.ok [])).1
      = [Step.received, Step.rateChecked, Step.validated, Step.failed] ∧
    (callPipeline "find_in_file" true true false (Except.ok [])).2
      = Except.error ⟨BAD_REQUEST, "Invalid tool arguments"⟩ ∧
    List.indexOf Step.rateChecked
        [Step.received, Step.rateChecked, Step.validated, Step.failed]
      < List.indexOf Step.validated
        [Step.received, Step.rateChecked, Step.validated, Step.failed] := by
  refine ⟨by decide, rfl, by decide⟩

/-- Claim C5 as amended: every call passes through its stations in the
order Received, then RateChecked (rate-limit enforcement), then Validated
(schema validation of the arguments), then Dispatched: the trace of any
call is one of the five prefixes of that order closed by a terminal
station; in particular a rate-limited call is rejected before its
arguments are validated, with the RateLimitExceeded error. -/
theorem c5_pipeline_order (name : String) (knownTool rateAllowed argsValid : Bool)
    (outcome : Except ObsError (List String)) :
    ((callPipeline name knownTool rateAllowed argsValid outcome).1
        = [Step.received, Step.failed] ∨
     (callPipeline name knownTool rateAllowed argsValid outcome).1
        = [Step.received, Step.rateChecked, Step.failed] ∨
     (callPipeline name knownTool rateAllowed argsValid outcome).1
        = [Step.received, Step.rateChecked, Step.validated, Step.failed] ∨
     (callPipeline name knownTool rateAllowed argsValid outcome).1
        = [Step.received, Step.rateChecked, Step.validated, Step.dispatched,
           Step.completed] ∨
     (callPipeline name knownTool rateAllowed argsValid outcome).1
        = [Step.received, Step.rateChecked, Step.validated, Step.dispatched,
           Step.failed]) ∧
    (knownTool = true → rateAllowed = false →
      callPipeline name knownTool rateAllowed argsValid outcome
        = ([Step.received, Step.rateChecked, Step.failed],
           Except.error ⟨RATE_LIMIT_EXCEEDED, "Rate limit exceeded for tool: " ++ name⟩)) := by
  constructor
  · cases knownTool with
    | false => simp [callPipeline]
    | true =>
      cases rateAllowed with
      | false => simp [callPipeline]
      | true =>
        cases argsValid with
        | false => simp [callPipeline]
        | true =>
          cases outcome with
          | ok c => simp [callPipeline]
          | error e =>
            by_cases hc : e.code = SUCCESS_NO_CONTENT <;>
              simp [callPipeline, normalizeDomainError, hc]
  · intro hkt hra
    subst hkt
    subst hra
    simp [callPipeline]

/-- Claim C7: in the outcome normalization of the dispatch pipeline, a
domain error carrying the success-with-no-content code is translated into
a synthetic success response holding a single text block reporting
successful completion, and is never propagated as a failure; every domain
error with any other code propagates with its code and message intact. -/
theorem c7_success_no_content_normalization (e : ObsError) :
    (e.code = SUCCESS_NO_CONTENT →
      normalizeDomainError e = Except.ok ["Operation completed successfully"] ∧
      ∀ name, callPipeline name true true true (Except.error e)
        = ([Step.received, Step.rateChecked, Step.validated, Step.dispatched,
            Step.completed],
           Except.ok ["Operation completed successfully"])) ∧
    (e.code ≠ SUCCESS_NO_CONTENT →
      normalizeDomainError e = Except.error e ∧
      ∀ name, (callPipeline name true true true (Except.error e)).2 = Except.error e) := by
  constructor
  · intro hc
    constructor
    · simp [normalizeDomainError, hc]
    · intro name
      simp [callPipeline, normalizeDomainError, hc]
  · intro hc
    constructor
    · simp [normalizeDomainError, hc]
    · intro name
      simp [callPipeline, normalizeDomainError, hc]

/-- Witness for C7: a SUCCESS_NO_CONTENT error becomes a success response;
a NOT_FOUND error propagates intact. -/
theorem c7_success_no_content_normalization_witness :
    normalizeDomainError ⟨20400, "no content"⟩
      = Except.ok ["Operation completed successfully"] ∧
    normalizeDomainError ⟨40400, "File not found"⟩
      = Except.error ⟨40400, "File not found"⟩ :=
  ⟨((c7_success_no_content_normalization ⟨20400, "no content"⟩).1 (by decide)).1,
   ((c7_success_no_content_normalization ⟨40400, "File not found"⟩).2 (by decide)).1⟩

/-! ### Token budgeter (TokenCounter) -/

/-- The reserved truncation notice appended to truncated responses. -/
def TRUNCATION_MESSAGE : String := "\n\n[Response truncated due to length]"

/-- The tiktoken tokenizer is an external library treated as a black box;
it is modelled as an exact character-level tokenizer: encoding a string
yields its list of characters. -/
def encodeTokens (s : String) : List Char := s.toList

/-- Decoding a token list back to text. -/
def decodeTokens (ts : List Char) : String := String.mk ts

/-- TokenCounter.countTokens: the length of the encoding. -/
def countTokens (s : String) : Nat := (encodeTokens s).length

/-- JS Array.prototype.slice(0, e): a negative end counts back from the
end of the array, clamped at zero. -/
def jsSliceTo (xs : List Char) (e : Int) : List Char :=
  if e < 0 then xs.take (xs.length - (-e).toNat) else xs.take e.toNat

/-- TokenCounter.truncateToTokenLimit: return the text unchanged when its
token count is within the limit; otherwise keep limit minus the token
length of the truncation notice tokens, decode them, and append the
notice. The subtraction is JS number arithmetic, so it can go negative;
slice then counts back from the end. -/
def truncateToTokenLimit (text : String) (limit : Nat) : String :=
  if (encodeTokens text).length ≤ limit then text
  else
    decodeTokens (jsSliceTo (encodeTokens text)
      ((limit : Int) - ((encodeTokens TRUNCATION_MESSAGE).length : Int)))
      ++ TRUNCATION_MESSAGE

/-- Counterexample to claim C6 as stated: with the token ceiling configured
below the token length of the reserved truncation notice (here 1), a
3-token response is truncated to the bare notice, whose token count 36
exceeds the ceiling, so the returned token count is not within the
ceiling. -/
theorem c6_counterexample :
    1 < countTokens "abc" ∧
    truncateToTokenLimit "abc" 1 = TRUNCATION_MESSAGE ∧
    1 < countTokens (truncateToTokenLimit "abc" 1) := by
  refine ⟨by decide, by decide, by decide⟩

/-- Claim C6 as amended: whenever the configured ceiling is at least the
token length of the reserved truncation notice (true of the default
ceiling 20000 against the 36-token notice), a text whose token count
exceeds the ceiling is cut to the ceiling minus the token length of the
notice, the notice is appended, and the token count of the returned string
equals the ceiling, hence is within it. -/
theorem c6_truncation (text : String) (limit : Nat)
    (hmsg : countTokens TRUNCATION_MESSAGE ≤ limit)
    (hover : limit < countTokens text) :
    truncateToTokenLimit text limit
      = decodeTokens ((encodeTokens text).take (limit - countTokens TRUNCATION_MESSAGE))
          ++ TRUNCATION_MESSAGE ∧
    countTokens (truncateToTokenLimit text limit) = limit := by
  have hover2 : ¬ (encodeTokens text).length ≤ limit := by
    have h : limit < (encodeTokens text).length := hover
    omega
  have hmsg2 : ((encodeTokens TRUNCATION_MESSAGE).length : Int) ≤ (limit : Int) := by
    have h : (encodeTokens TRUNCATION_MESSAGE).length ≤ limit := hmsg
    exact_mod_cast h
  have hslice : jsSliceTo (encodeTokens text)
        ((limit : Int) - ((encodeTokens TRUNCATION_MESSAGE).length : Int))
      = (encodeTokens text).take (limit - countTokens TRUNCATION_MESSAGE) := by
    unfold jsSliceTo
    rw [if_neg (by omega)]
    congr 1
    rw [Int.toNat_sub]
    rfl
  have hfirst : truncateToTokenLimit text limit
      = decodeTokens ((encodeTokens text).take (limit - countTokens TRUNCATION_MESSAGE))
          ++ TRUNCATION_MESSAGE := by
    unfold truncateToTokenLimit
    rw [if_neg hover2, hslice]
  refine ⟨hfirst, ?_⟩
  rw [hfirst]
  show ((decodeTokens ((encodeTokens text).take (limit - countTokens TRUNCATION_MESSAGE))
      ++ TRUNCATION_MESSAGE)).data.length = limit
  rw [String.data_append]
  rw [List.length_append]
  have hdec : (decodeTokens ((encodeTokens text).take
      (limit - countTokens TRUNCATION_MESSAGE))).data
      = (encodeTokens text).take (limit - countTokens TRUNCATION_MESSAGE) := rfl
  rw [hdec, List.length_take]
  have h1 : countTokens TRUNCATION_MESSAGE = TRUNCATION_MESSAGE.data.length := rfl
  have h2 : countTokens text = (encodeTokens text).length := rfl
  omega

/-- Witness for C6 at ceiling 40 with a 50-token text: the result fits the
ceiling exactly. -/
theorem c6_truncation_witness :
    countTokens TRUNCATION_MESSAGE ≤ 40 ∧
    40 < countTokens "aaaaaaaaaaaaaaaaaaaaaaaaaaaaaaaaaaaaaaaaaaaaaaaaaa" ∧
    countTokens (truncateToTokenLimit "aaaaaaaaaaaaaaaaaaaaaaaaaaaaaaaaaaaaaaaaaaaaaaaaaa" 40)
      = 40 :=
  ⟨by decide, by decide,
   (c6_truncation "aaaaaaaaaaaaaaaaaaaaaaaaaaaaaaaaaaaaaaaaaaaaaaaaaa" 40
     (by decide) (by decide)).2⟩

/-! ### A comparison sort with a boolean comparator, modelling JS
Array.prototype.sort -/

/-- Insert an element into a sorted list, before the first element it
compares at-or-before. -/
def orderedInsertB {α : Type} (le : α → α → Bool) (x : α) : List α → List α
  | [] => [x]
  | y :: ys => if le x y then x :: y :: ys else y :: orderedInsertB le x ys

/-- Insertion sort with a boolean comparator; any comparison sort models
the JS Array.prototype.sort contract for a consistent comparator. -/
def insertionSortB {α : Type} (le : α → α → Bool) : List α → List α
  | [] => []
  | x :: xs => orderedInsertB le x (insertionSortB le xs)

theorem perm_orderedInsertB {α : Type} (le : α → α → Bool) (x : α) :
    ∀ l : List α, (orderedInsertB le x l).Perm (x :: l) := by
  intro l
  induction l with
  | nil => exact List.Perm.refl _
  | cons y ys ih =>
    by_cases h : le x y
    · simp [orderedInsertB, h]
    · simp only [orderedInsertB, if_neg h]
      exact (ih.cons y).trans (List.Perm.swap x y ys)

theorem perm_insertionSortB {α : Type} (le : α → α → Bool) :
    ∀ l : List α, (insertionSortB le l).Perm l := by
  intro l
  induction l with
  | nil => exact List.Perm.refl _
  | cons x xs ih =>
    exact (perm_orderedInsertB le x (insertionSortB le xs)).trans (ih.cons x)

theorem mem_orderedInsertB {α : Type} (le : α → α → Bool) (x z : α) (l : List α) :
    z ∈ orderedInsertB le x l ↔ z = x ∨ z ∈ l := by
  rw [(perm_orderedInsertB le x l).mem_iff, List.mem_cons]

theorem sorted_orderedInsertB {α : Type} (le : α → α → Bool)
    (htot : ∀ a b, le a b = true ∨ le b a = true)
    (htrans : ∀ a b c, le a b = true → le b c = true → le a c = true) (x : α) :
    ∀ l : List α, l.Pairwise (fun a b => le a b = true) →
      (orderedInsertB le x l).Pairwise (fun a b => le a b = true) := by
  intro l
  induction l with
  | nil => intro _; simp [orderedInsertB]
  | cons y ys ih =>
    intro hl
    obtain ⟨hy, hys⟩ := List.pairwise_cons.mp hl
    by_cases h : le x y
    · simp only [orderedInsertB, if_pos h]
      refine List.pairwise_cons.mpr ⟨?_, hl⟩
      intro z hz
      rcases List.mem_cons.mp hz with rfl | hz2
      · exact h
      · exact htrans x y z h (hy z hz2)
    · simp only [orderedInsertB, if_neg h]
      refine List.pairwise_cons.mpr ⟨?_, ih hys⟩
      intro z hz
      rcases (mem_orderedInsertB le x z ys).mp hz with rfl | hz2
      · exact (htot z y).resolve_left (by simpa using h)
      · exact hy z hz2

theorem sorted_insertionSortB {α : Type} (le : α → α → Bool)
    (htot : ∀ a b, le a b = true ∨ le b a = true)
    (htrans : ∀ a b c, le a b = true → le b c = true → le a c = true) :
    ∀ l : List α, (insertionSortB le l).Pairwise (fun a b => le a b = true) := by
  intro l
  induction l with
  | nil => simp [insertionSortB]
  | cons x xs ih => exact sorted_orderedInsertB le htot htrans x _ ih

/-- Lexicographic comparison of character lists by code point, the order
JS Array.prototype.sort applies to strings by default. -/
def listLeb : List Char → List Char → Bool
  | [], _ => true
  | _ :: _, [] => false
  | x :: xs, y :: ys =>
    if x.toNat < y.toNat then true
    else if y.toNat < x.toNat then false
    else listLeb xs ys

/-- String comparison by code units, the default JS sort order. -/
def strLeb (a b : String) : Bool := listLeb a.data b.data

theorem listLeb_total : ∀ a b : List Char, listLeb a b = true ∨ listLeb b a = true := by
  intro a
  induction a with
  | nil => intro b; left; rfl
  | cons x xs ih =>
    intro b
    cases b with
    | nil => right; rfl
    | cons y ys =>
      by_cases h1 : x.toNat < y.toNat
      · left; simp [listLeb, h1]
      · by_cases h2 : y.toNat < x.toNat
        · right; simp [listLeb, h1, h2]
        · rcases ih ys with h | h
          · left; simp [listLeb, h1, h2, h]
          · right; simp [listLeb, h1, h2, h]

theorem listLeb_trans :
    ∀ a b c : List Char, listLeb a b = true → listLeb b c = true → listLeb a c = true := by
  intro a
  induction a with
  | nil => intro b c _ _; rfl
  | cons x xs ih =>
    intro b c hab hbc
    cases b with
    | nil => exact absurd hab (by simp [listLeb])
    | cons y ys =>
      cases c with
      | nil => exact absurd hbc (by simp [listLeb])
      | cons z zs =>
        simp only [listLeb] at hab hbc ⊢
        by_cases h1 : x.toNat < y.toNat <;> by_cases h2 : y.toNat < z.toNat
        · rw [if_pos (by omega)]
        · by_cases h3 : z.toNat < y.toNat
          · rw [if_neg h2, if_pos h3] at hbc
            exact absurd hbc (by simp)
          · rw [if_pos (by omega)]
        · by_cases h4 : y.toNat < x.toNat
          · rw [if_neg h1, if_pos h4] at hab
            exact absurd hab (by simp)
          · rw [if_pos (by omega)]
        · by_cases h4 : y.toNat < x.toNat
          · rw [if_neg h1, if_pos h4] at hab
            exact absurd hab (by simp)
          · by_cases h3 : z.toNat < y.toNat
            · rw [if_neg h2, if_pos h3] at hbc
              exact absurd hbc (by simp)
            · rw [if_neg h1, if_neg h4] at hab
              rw [if_neg h2, if_neg h3] at hbc
              rw [if_neg (by omega), if_neg (by omega)]
              exact ih ys zs hab hbc

theorem strLeb_total (a b : String) : strLeb a b = true ∨ strLeb b a = true :=
  listLeb_total a.data b.data

theorem strLeb_trans (a b c : String) (h1 : strLeb a b = true) (h2 : strLeb b c = true) :
    strLeb a c = true :=
  listLeb_trans a.data b.data c.data h1 h2

/-! ### Tag cache and tag listing -/

/-- One entry of the produced tag listing: tag name, count of distinct
files containing it, and the sorted list of those file paths. -/
structure TagInfo where
  name : String
  count : Nat
  files : List String
  deriving DecidableEq, Repr

/-- The aggregate metadata of the tag listing. The lastUpdate wall-clock
stamp also present in the source response is a Date.now() value outside
this model. -/
structure TagMeta where
  totalOccurrences : Nat
  uniqueTags : Nat
  scannedFiles : Nat
  deriving DecidableEq, Repr

/-- The full tag listing response. -/
structure TagResponse where
  tags : List TagInfo
  metadata : TagMeta
  deriving DecidableEq, Repr

/-- Strip one leading hash from a tag, as parseProperties does for the
wire format and as the get_tags tool repeats with replace of a leading
hash. -/
def stripHash (t : String) : String :=
  match t.data with
  | c :: cs => if c = '#' then String.mk cs else t
  | [] => t

/-- TagResource.addTag: record a file under a tag; the tag map is a JS Map
of JS Sets, both iterated in insertion order, so a new tag is appended and
a file already recorded under the tag is not duplicated. -/
def addTag (cache : List (String × List String)) (tag file : String) :
    List (String × List String) :=
  if cache.any (fun e => e.1 == tag) then
    cache.map (fun e => if e.1 = tag then (e.1, if file ∈ e.2 then e.2 else e.2 ++ [file]) else e)
  else cache ++ [(tag, [file])]

/-- The tag scan of TagResource.initializeCache and of the get_tags tool:
for each markdown file in order, record the file under each of its
front-matter tags, hash stripped. Each note is given as its filename with
the tag list parsed from its front matter. -/
def scanNotes (notes : List (String × List String)) : List (String × List String) :=
  notes.foldl (fun c n => n.2.foldl (fun c2 t => addTag c2 (stripHash t) n.1) c) []

/-- Array.from(files).sort() on file paths: default JS sort order. -/
def fileSort (l : List String) : List String := insertionSortB strLeb l

/-- The tag listing comparator (b.count - a.count) || a.name compared to
b.name: count descending, ties by name ascending. -/
def tagOrderB (a b : TagInfo) : Bool :=
  decide (b.count < a.count) || (decide (a.count = b.count) && strLeb a.name b.name)

/-- The response assembly of TagResource.getContent (tags.ts lines
118-136), shared by the get_tags tool: map every cache entry to its name,
distinct-file count and sorted file list, sort by count descending with
ties by name ascending, and aggregate the metadata. -/
def buildTagResponse (cache : List (String × List String)) : TagResponse :=
  { tags := insertionSortB tagOrderB
      (cache.map fun e => TagInfo.mk e.1 e.2.length (fileSort e.2))
  , metadata :=
    { totalOccurrences := cache.foldl (fun s e => s + e.2.length) 0
    , uniqueTags := cache.length
    , scannedFiles := (dedupKeepFirst (cache.flatMap fun e => e.2)).length } }

theorem foldl_add_sizes (l : List (String × List String)) (n : Nat) :
    l.foldl (fun s e => s + e.2.length) n = n + (l.map (fun e => e.2.length)).sum := by
  induction l generalizing n with
  | nil => simp
  | cons e es ih => simp [ih, Nat.add_assoc]

theorem tagOrderB_total (a b : TagInfo) : tagOrderB a b = true ∨ tagOrderB b a = true := by
  simp only [tagOrderB, Bool.or_eq_true, Bool.and_eq_true, decide_eq_true_eq]
  rcases Nat.lt_trichotomy a.count b.count with h | h | h
  · exact Or.inr (Or.inl h)
  · rcases strLeb_total a.name b.name with h2 | h2
    · exact Or.inl (Or.inr ⟨h, h2⟩)
    · exact Or.inr (Or.inr ⟨h.symm, h2⟩)
  · exact Or.inl (Or.inl h)

theorem tagOrderB_trans (a b c : TagInfo) (hab : tagOrderB a b = true)
    (hbc : tagOrderB b c = true) : tagOrderB a c = true := by
  simp only [tagOrderB, Bool.or_eq_true, Bool.and_eq_true, decide_eq_true_eq] at hab hbc ⊢
  rcases hab with h1 | ⟨h1, h2⟩ <;> rcases hbc with h3 | ⟨h3, h4⟩
  · exact Or.inl (by omega)
  · exact Or.inl (by omega)
  · exact Or.inl (by omega)
  · exact Or.inr ⟨by omega, strLeb_trans _ _ _ h2 h4⟩

/-- Claim C8: for every well-formed state of the tag index (distinct tag
names, and no duplicate file under one tag, as a Map of Sets guarantees),
the produced listing has one entry per tag carrying its name, the count of
distinct files containing it and the sorted duplicate-free list of exactly
those file paths; the entries are ordered by count descending with ties
broken by name ascending; totalOccurrences equals the sum of the per-entry
counts, uniqueTags equals the number of distinct tags, and scannedFiles
equals the count of distinct files contributing at least one tag. -/
theorem c8_tag_listing (cache : List (String × List String))
    (hkeys : (cache.map Prod.fst).Nodup)
    (hfiles : ∀ e ∈ cache, e.2.Nodup) :
    (buildTagResponse cache).tags.length = cache.length ∧
    (∀ info ∈ (buildTagResponse cache).tags, ∃ fs, (info.name, fs) ∈ cache ∧
      info.count = fs.length ∧ info.files.Nodup ∧
      info.files.Pairwise (fun a b => strLeb a b = true) ∧
      (∀ f, f ∈ info.files ↔ f ∈ fs)) ∧
    (∀ e ∈ cache, ∃ info ∈ (buildTagResponse cache).tags,
      info.name = e.1 ∧ info.count = e.2.length) ∧
    ((buildTagResponse cache).tags.Pairwise fun x y =>
      y.count < x.count ∨ (x.count = y.count ∧ strLeb x.name y.name = true)) ∧
    (buildTagResponse cache).metadata.totalOccurrences
      = ((buildTagResponse cache).tags.map TagInfo.count).sum ∧
    (buildTagResponse cache).metadata.uniqueTags = cache.length ∧
    ∃ distinct : List String, distinct.Nodup ∧
      (∀ f, f ∈ distinct ↔ ∃ e ∈ cache, f ∈ e.2) ∧
      (buildTagResponse cache).metadata.scannedFiles = distinct.length := by
  have hperm := perm_insertionSortB tagOrderB
    (cache.map fun e => TagInfo.mk e.1 e.2.length (fileSort e.2))
  refine ⟨?_, ?_, ?_, ?_, ?_, rfl, ?_⟩
  · exact hperm.length_eq.trans (List.length_map _ _)
  · intro info hinfo
    obtain ⟨e, he, heq⟩ := List.mem_map.mp (hperm.mem_iff.mp hinfo)
    subst heq
    refine ⟨e.2, by simpa using he, rfl, ?_, ?_, ?_⟩
    · exact (perm_insertionSortB strLeb e.2).nodup_iff.mpr (hfiles e he)
    · exact sorted_insertionSortB strLeb strLeb_total strLeb_trans e.2
    · intro f
      exact (perm_insertionSortB strLeb e.2).mem_iff
  · intro e he
    exact ⟨TagInfo.mk e.1 e.2.length (fileSort e.2),
      hperm.mem_iff.mpr (List.mem_map.mpr ⟨e, he, rfl⟩), rfl, rfl⟩
  · have hs := sorted_insertionSortB tagOrderB tagOrderB_total tagOrderB_trans
      (cache.map fun e => TagInfo.mk e.1 e.2.length (fileSort e.2))
    exact hs.imp (fun hab => by
      simpa [tagOrderB, Bool.or_eq_true, Bool.and_eq_true, decide_eq_true_eq] using hab)
  · have h5 : (buildTagResponse cache).metadata.totalOccurrences
        = ((cache.map fun e => TagInfo.mk e.1 e.2.length (fileSort e.2)).map
            TagInfo.count).sum := by
      show cache.foldl (fun s e => s + e.2.length) 0 = _
      rw [foldl_add_sizes, List.map_map, Nat.zero_add]
      have hcomp : (TagInfo.count ∘ fun e : String × List String =>
          TagInfo.mk e.1 e.2.length (fileSort e.2)) = fun e => e.2.length := by
        funext e
        rfl
      rw [hcomp]
    rw [h5]
    exact ((hperm.map TagInfo.count).sum_eq).symm
  · refine ⟨dedupKeepFirst (cache.flatMap fun e => e.2), nodup_dedupKeepFirst _, ?_, rfl⟩
    intro f
    rw [mem_dedupKeepFirst, List.mem_flatMap]

/-- Witness for C8, the tag aggregation scenario: three notes with
front-matter tags [#a, #b], [#b], [#a] produce the listing a with count 2
and files [note1, note3], then b with count 2 and files [note1, note2],
sorted by count descending then name ascending, with totalOccurrences 4,
uniqueTags 2 and scannedFiles 3; the ordering conclusion is obtained from
the listing theorem at this concrete cache. -/
theorem c8_tag_listing_witness :
    buildTagResponse (scanNotes [("note1", ["#a", "#b"]), ("note2", ["#b"]), ("note3", ["#a"])])
      = ⟨[⟨"a", 2, ["note1", "note3"]⟩, ⟨"b", 2, ["note1", "note2"]⟩], ⟨4, 2, 3⟩⟩ ∧
    ((buildTagResponse
        (scanNotes [("note1", ["#a", "#b"]), ("note2", ["#b"]), ("note3", ["#a"])])).tags.Pairwise
      fun x y => y.count < x.count ∨ (x.count = y.count ∧ strLeb x.name y.name = true)) :=
  ⟨by decide,
   (c8_tag_listing (scanNotes [("note1", ["#a", "#b"]), ("note2", ["#b"]), ("note3", ["#a"])])
     (by decide) (by decide)).2.2.2.1⟩

/-- Witness for C5 at a concrete rate-limited call: the call is rejected
with the RateLimitExceeded error after the trace Received, RateChecked,
with no Validated station. -/
theorem c5_pipeline_order_witness :
    callPipeline "get_tags" true false true (Except.ok [])
      = ([Step.received, Step.rateChecked, Step.failed],
         Except.error ⟨RATE_LIMIT_EXCEEDED, "Rate limit exceeded for tool: get_tags"⟩) :=
  (c5_pipeline_order "get_tags" true false true (Except.ok [])).2 rfl rfl
